import Mathlib

/-!
Shallow embedding of the GitLab Handbook RAG pipeline (scraper.py,
vector_store.py, chatbot.py): section extraction with character offsets,
recursive crawl discovery with a visited set and page budget, token-chunk
splitting with offset recomputation, idempotent bulk ingestion, source
citation extraction, guardrail filtering, confidence scoring, response
cleaning and conversation-history management.

External collaborators (HTTP fetching, BeautifulSoup element walking, the
LangChain text splitter, the embedding model and the LLM) are abstracted as
function parameters; everything the claims are about is translated from the
repository's own code.
-/

/- ===================== Python string primitives ===================== -/

/-- Python str.lower, modelled as per-character ASCII case folding. -/
def pyLower (s : String) : String := String.mk (s.data.map Char.toLower)

/-- Python str.strip on a character list: drop whitespace at both ends. -/
def stripChars (cs : List Char) : List Char :=
  ((cs.dropWhile Char.isWhitespace).reverse.dropWhile Char.isWhitespace).reverse

/-- Python str.strip. -/
def pyStrip (s : String) : String := String.mk (stripChars s.data)

/-- Boolean test that the first character list is a prefix of the second. -/
def prefixChars : List Char → List Char → Bool
  | [], _ => true
  | _ :: _, [] => false
  | a :: as, b :: bs => a == b && prefixChars as bs

/-- Boolean test that pat occurs as a contiguous substring of the list. -/
def infixChars (pat : List Char) : List Char → Bool
  | [] => prefixChars pat []
  | c :: cs => prefixChars pat (c :: cs) || infixChars pat cs

/-- Python str.startswith. -/
def startsWithStr (pre s : String) : Bool := prefixChars pre.data s.data

/-- Python substring containment, pat in s. -/
def pyContains (pat s : String) : Bool := infixChars pat.data s.data

/-- Split a character list at every occurrence of a separator character,
keeping empty pieces, as Python str.split with a one-character separator. -/
def splitOnChar (c : Char) : List Char → List (List Char)
  | [] => [[]]
  | x :: xs =>
    match splitOnChar c xs with
    | [] => [[]]
    | h :: t => if x == c then [] :: h :: t else (x :: h) :: t

/-- Python text.split on a newline character. -/
def pySplitLines (s : String) : List String :=
  (splitOnChar (Char.ofNat 10) s.data).map String.mk

/-- Python sep.join(parts). -/
def pyJoin (sep : String) : List String → String
  | [] => ""
  | [x] => x
  | x :: xs => x ++ sep ++ pyJoin sep xs

/- ===================== scraper.py: extract_sections ===================== -/

/-- One walked element of the page's content root, after the nav/header/
footer/aside skip: either a heading h1..h6 or a text-bearing block element,
carrying the text that clean_text(element.get_text()) produced for it. -/
inductive PageElement where
  | heading (text : String)
  | block (text : String)
deriving DecidableEq, Repr

/-- A Section record as produced by GitLabScraper.extract_sections. -/
structure SectionRec where
  source_url : String
  section_title : String
  start_char : Nat
  end_char : Nat
  content : String
deriving DecidableEq, Repr, Inhabited

/-- Closing out the current section in extract_sections: if the accumulated
texts are nonempty, join them with a space and emit a Section exactly when
the joined length is strictly greater than 50, advancing the running char
offset by that length; otherwise emit nothing and keep the offset. -/
def flushSection (url title : String) (acc : List String) (off : Nat) :
    List SectionRec × Nat :=
  if acc = [] then ([], off)
  else
    let s := pyJoin " " acc
    if 50 < s.length then
      ([⟨url, title, off, off + s.length, s⟩], off + s.length)
    else ([], off)

/-- The element walk of extract_sections: elements with text shorter than 10
characters are skipped; a heading closes out the current section and starts a
new one named after the heading text; a block appends its text to the current
section; the final open section is flushed at the end of the walk. -/
def extractLoop (url : String) :
    List PageElement → String → List String → Nat → List SectionRec
  | [], title, acc, off => (flushSection url title acc off).1
  | e :: es, title, acc, off =>
    match e with
    | .heading t =>
      if t.length < 10 then extractLoop url es title acc off
      else
        let fr := flushSection url title acc off
        fr.1 ++ extractLoop url es t [] fr.2
    | .block t =>
      if t.length < 10 then extractLoop url es title acc off
      else extractLoop url es title (acc ++ [t]) off

/-- GitLabScraper.extract_sections: walk the elements starting from the
synthetic title Introduction at offset 0; if no section was produced, fall
back to a single Main Content section over the whole content root text
(again only when longer than 50 characters). -/
def extract_sections (url : String) (elements : List PageElement)
    (all_text : String) : List SectionRec :=
  let cs := extractLoop url elements "Introduction" [] 0
  if cs = [] then
    if 50 < all_text.length then
      [⟨url, "Main Content", 0, all_text.length, all_text⟩]
    else []
  else cs

/- ===================== scraper.py: crawl_recursive ===================== -/

/-- Result of one crawl_recursive invocation: the URLs collected for
scraping, the final visited set (as a list), and the trace of URLs on which
a discovery fetch was attempted, in order. -/
structure CrawlResult where
  toScrape : List String
  visited : List String
  attempts : List String
deriving DecidableEq, Repr, Inhabited

/-- Result of the per-level loop over start_urls inside crawl_recursive. -/
structure LoopResult where
  toScrape : List String
  visited : List String
  next : List String
  attempts : List String
deriving DecidableEq, Repr, Inhabited

/-- The next-level frontier accumulation of crawl_recursive: each found link
is appended when it is neither already visited nor already queued. -/
def addLinks : List String → List String → List String → List String
  | [], _, next => next
  | l :: ls, visited, next =>
    if l ∉ visited ∧ l ∉ next then addLinks ls visited (next ++ [l])
    else addLinks ls visited next

/-- The for-loop of crawl_recursive over start_urls: skip already-visited
URLs, break once the visited set has reached max_pages, attempt the
discovery fetch, and on success mark the URL visited, collect it for
scraping and queue its fresh links; a fetch failure (modelled as none) is
caught and contributes nothing, in particular the URL is not marked
visited. -/
def crawlLoop (fetch : String → Option (List String)) (maxPages : Nat) :
    List String → List String → List String → LoopResult
  | [], visited, next => ⟨[], visited, next, []⟩
  | u :: us, visited, next =>
    if u ∈ visited then crawlLoop fetch maxPages us visited next
    else if maxPages ≤ visited.length then ⟨[], visited, next, []⟩
    else
      match fetch u with
      | none =>
        let r := crawlLoop fetch maxPages us visited next
        ⟨r.toScrape, r.visited, r.next, u :: r.attempts⟩
      | some links =>
        let visited2 := visited ++ [u]
        let next2 := addLinks links visited2 next
        let r := crawlLoop fetch maxPages us visited2 next2
        ⟨u :: r.toScrape, r.visited, r.next, u :: r.attempts⟩

/-- GitLabScraper.crawl_recursive. The recursion of the Python code is on
the depth counter, bounded by max_depth; gas is the structural bound on the
remaining recursion depth. Whenever max_depth ≤ depth + gas (as in the
entry call, where depth = 0 and gas = max_depth), the gas-exhausted branch
is unreachable and the function computes exactly what the Python recursion
computes: stop when depth exceeds max_depth or the visited set has reached
max_pages, run the per-level loop, and recurse one level deeper on the
fresh frontier when it is nonempty and both budgets still allow it. -/
def crawl_recursive (fetch : String → Option (List String))
    (maxDepth maxPages : Nat) :
    Nat → List String → Nat → List String → CrawlResult
  | gas, start, depth, visited =>
    if maxDepth < depth ∨ maxPages ≤ visited.length then ⟨[], visited, []⟩
    else
      let r := crawlLoop fetch maxPages start visited []
      if r.next ≠ [] ∧ depth < maxDepth ∧ r.visited.length < maxPages then
        match gas with
        | 0 => ⟨r.toScrape, r.visited, r.attempts⟩
        | gas' + 1 =>
          let r2 := crawl_recursive fetch maxDepth maxPages gas' r.next
            (depth + 1) r.visited
          ⟨r.toScrape ++ r2.toScrape, r2.visited, r.attempts ++ r2.attempts⟩
      else ⟨r.toScrape, r.visited, r.attempts⟩

/-- GitLabScraper.find_all_pages: reset the visited set and crawl from the
base URL at depth 0. -/
def find_all_pages (fetch : String → Option (List String))
    (maxDepth maxPages : Nat) (startUrl : String) : CrawlResult :=
  crawl_recursive fetch maxDepth maxPages maxDepth [startUrl] 0 []

/- ===================== vector_store.py: splitting ===================== -/

/-- A chunk record loaded from gitlab_chunks.json. -/
structure RawChunk where
  content : String
  source_url : String
  section_title : String
  start_char : Int
  end_char : Int
deriving DecidableEq, Repr, Inhabited

/-- A LangChain Document built by _create_langchain_documents: the page
content together with the preserved custom metadata. -/
structure SplitDoc where
  content : String
  source_url : String
  section_title : String
  start_char : Int
  end_char : Int
deriving DecidableEq, Repr, Inhabited

/-- A re-chunked Document as built by _split_with_metadata_preservation. -/
structure ChunkDoc where
  content : String
  source_url : String
  section_title : String
  start_char : Int
  end_char : Int
  chunk_index : Nat
  total_chunks : Nat
  original_start : Int
  original_end : Int
deriving DecidableEq, Repr, Inhabited

/-- VectorStore._create_langchain_documents. -/
def create_langchain_documents (chunks : List RawChunk) : List SplitDoc :=
  chunks.map (fun c => ⟨c.content, c.source_url, c.section_title,
    c.start_char, c.end_char⟩)

/-- The inner offset loop of _split_with_metadata_preservation over the
pieces returned by the text splitter for one document: each piece becomes a
chunk at the current offset, whose end is the offset plus the piece's
character length; the offset then advances to that end minus the configured
overlap character count. -/
def splitChunksGo (overlap : Int) (url title : String)
    (origStart origEnd : Int) (total : Nat) :
    List String → Int → Nat → List ChunkDoc
  | [], _, _ => []
  | p :: ps, cur, i =>
    ⟨p, url, title, cur, cur + p.length, i, total, origStart, origEnd⟩ ::
      splitChunksGo overlap url title origStart origEnd total ps
        (cur + p.length - overlap) (i + 1)

/-- The per-document body of _split_with_metadata_preservation, applied to
the pieces the LangChain splitter returned for the document's content: the
offset starts at the parent document's own start_char, and every piece is
tagged with its index and the total number of pieces. -/
def splitDoc (overlap : Int) (doc : SplitDoc) (pieces : List String) :
    List ChunkDoc :=
  splitChunksGo overlap doc.source_url doc.section_title doc.start_char
    doc.end_char pieces.length pieces doc.start_char 0

/-- VectorStore._split_with_metadata_preservation, with the LangChain
RecursiveCharacterTextSplitter abstracted as the splitter parameter. -/
def split_with_metadata_preservation (overlap : Int)
    (splitter : String → List String) (docs : List SplitDoc) :
    List ChunkDoc :=
  docs.flatMap (fun doc => splitDoc overlap doc (splitter doc.content))

/- ===================== vector_store.py: add_chunks ===================== -/

/-- A document as stored in the Chroma collection: either an original
document (token chunking disabled) or a re-chunked one. -/
inductive StoredDoc where
  | plain (d : SplitDoc)
  | chunked (d : ChunkDoc)
deriving DecidableEq, Repr

/-- The batched add_documents loop of add_chunks: insert 100 documents at a
time, counting one embedding-service invocation per batch. -/
def add_documents_batched :
    List StoredDoc → List StoredDoc → List StoredDoc × Nat
  | store, [] => (store, 0)
  | store, d :: ds =>
    let batch := (d :: ds).take 100
    let rest := (d :: ds).drop 100
    let r := add_documents_batched (store ++ batch) rest
    (r.1, r.2 + 1)
termination_by _ l => l.length
decreasing_by simp [List.length_drop]; omega

/-- VectorStore.add_chunks: return immediately on an empty chunk list;
convert the chunks to documents, optionally re-chunk them, then skip the
whole insertion (and every embedding call) whenever the collection already
holds at least one document; otherwise embed and insert in batches. The
second component counts embedding-service invocations. -/
def add_chunks (overlap : Int) (splitter : String → List String)
    (store : List StoredDoc) (chunks : List RawChunk)
    (apply_token_chunking : Bool) : List StoredDoc × Nat :=
  if chunks = [] then (store, 0)
  else
    let documents : List StoredDoc :=
      if apply_token_chunking then
        (split_with_metadata_preservation overlap splitter
          (create_langchain_documents chunks)).map StoredDoc.chunked
      else (create_langchain_documents chunks).map StoredDoc.plain
    if 0 < store.length then (store, 0)
    else add_documents_batched store documents

/- ===================== chatbot.py: sources and cleaning ===================== -/

/-- The metadata of a retrieved LangChain Document (retriever.invoke). -/
structure DocMeta where
  source_url : String
  section_title : String
  start_char : Int
  end_char : Int
deriving DecidableEq, Repr, Inhabited

/-- One formatted result of VectorStore.search. -/
structure SearchResult where
  content : String
  source_url : String
  section_title : String
  start_char : Int
  end_char : Int
  distance : Rat
deriving DecidableEq, Repr, Inhabited

/-- One citation record assembled by Chatbot.extract_sources. -/
structure SourceRec where
  url : String
  section_title : String
  start_char : Int
  end_char : Int
  relevance_score : Option Rat
deriving DecidableEq, Repr, Inhabited

/-- The first loop of Chatbot.extract_sources, over the retriever's source
documents: a document contributes a source when its URL is nonempty and not
yet seen. Returns the sources together with the final seen set. -/
def extractDocsLoop : List DocMeta → List String → List SourceRec × List String
  | [], seen => ([], seen)
  | d :: ds, seen =>
    if d.source_url ≠ "" ∧ d.source_url ∉ seen then
      let r := extractDocsLoop ds (d.source_url :: seen)
      (⟨d.source_url, d.section_title, d.start_char, d.end_char, none⟩ :: r.1,
        r.2)
    else extractDocsLoop ds seen

/-- The second loop of Chatbot.extract_sources, over the search results: a
result contributes a source when its URL is not yet seen, with relevance
score 1 - distance when the distance is nonzero (Python truthiness) and
None otherwise. -/
def extractResultsLoop :
    List SearchResult → List String → List SourceRec × List String
  | [], seen => ([], seen)
  | r :: rs, seen =>
    if r.source_url ∉ seen then
      let rest := extractResultsLoop rs (r.source_url :: seen)
      (⟨r.source_url, r.section_title, r.start_char, r.end_char,
          if r.distance ≠ 0 then some (1 - r.distance) else none⟩ :: rest.1,
        rest.2)
    else extractResultsLoop rs seen

/-- Chatbot.extract_sources: both loops share one seen-URL set, documents
first, then search results. -/
def extract_sources (docs : List DocMeta) (results : List SearchResult) :
    List SourceRec :=
  let r1 := extractDocsLoop docs []
  (r1.1 ++ (extractResultsLoop results r1.2).1)

/-- The source validation filter of generate_response: keep only sources
with a nonempty URL that starts with http. -/
def validated_sources (docs : List DocMeta) (results : List SearchResult) :
    List SourceRec :=
  (extract_sources docs results).filter
    (fun s => (s.url != "") && startsWithStr "http" s.url)

/-- Modelled from the spec's words for comparison with extract_sources:
deduplication by URL in which the first occurrence wins. -/
def firstOccurrenceDedup : List String → List SourceRec → List SourceRec
  | _, [] => []
  | seen, s :: ss =>
    if s.url ∈ seen then firstOccurrenceDedup seen ss
    else s :: firstOccurrenceDedup (s.url :: seen) ss

/-- The undeduplicated citation-candidate stream extract_sources draws
from: the retriever documents with a nonempty URL, in order, followed by
the search results, in order. -/
def candidateSources (docs : List DocMeta) (results : List SearchResult) :
    List SourceRec :=
  (docs.filter (fun d => d.source_url != "")).map
      (fun d => ⟨d.source_url, d.section_title, d.start_char, d.end_char,
        none⟩) ++
    results.map (fun r => ⟨r.source_url, r.section_title, r.start_char,
      r.end_char, if r.distance ≠ 0 then some (1 - r.distance) else none⟩)

/-- The per-line test of generate_response's response cleaning:
line.strip().lower().startswith("sources:"). -/
def isSourcesLine (l : String) : Bool :=
  startsWithStr "sources:" (pyLower (pyStrip l))

/-- The guard of the response cleaning: "Sources:" in response_text or
"sources:" in response_text.lower(). -/
def cleanGuard (raw : String) : Bool :=
  pyContains "Sources:" raw || pyContains "sources:" (pyLower raw)

/-- The kept lines of the response cleaning: when the guard fires, all
lines before the first line whose stripped lowercase form starts with
"sources:" (the Python loop breaks there); otherwise all lines. -/
def cleanedLines (raw : String) : List String :=
  if cleanGuard raw then
    (pySplitLines raw).takeWhile (fun l => !isSourcesLine l)
  else pySplitLines raw

/-- The response cleaning of generate_response: when the guard fires, join
the kept lines back with newlines and strip the result; otherwise the
response text is left untouched. -/
def cleanResponse (raw : String) : String :=
  if cleanGuard raw then pyStrip (pyJoin "\n" (cleanedLines raw))
  else raw

/- ===================== chatbot.py: guardrail, confidence ===================== -/

/-- The fixed denylist of check_query_appropriateness. -/
def inappropriate_keywords : List String :=
  ["hack", "exploit", "bypass", "unauthorized access",
   "personal information", "private data", "confidential"]

/-- Chatbot.check_query_appropriateness: the first denylist keyword found
in the lowercased query blocks it with a templated refusal naming the
keyword. -/
def check_query_appropriateness (q : String) : Bool × Option String :=
  match inappropriate_keywords.find? (fun k => pyContains k (pyLower q)) with
  | some k => (false,
      some ("I can only help with questions about GitLab\x27s public Handbook and Direction pages. I cannot assist with " ++ k ++ "."))
  | none => (true, none)

/-- The discrete answer-confidence level. -/
inductive Confidence where
  | high
  | medium
  | low
deriving DecidableEq, Repr

/-- The confidence computation of generate_response: low when there are no
search results, otherwise thresholds on the mean distance, with 0.3 and 0.5
as exclusive upper bounds of the high and medium tiers. -/
def computeConfidence (ds : List Rat) : Confidence :=
  if ds = [] then .low
  else
    let avg := ds.sum / (ds.length : Rat)
    if avg < 3/10 then .high
    else if avg < 1/2 then .medium
    else .low

/- ===================== chatbot.py: generate_response ===================== -/

/-- One rolling conversation-history entry. -/
structure ChatMsg where
  role : String
  content : String
deriving DecidableEq, Repr, Inhabited

/-- The per-query result record of generate_response. -/
structure GenResult where
  response : String
  sources : List SourceRec
  confidence : Confidence
  context_used : Bool
  guardrail_triggered : Bool
  error : Option String
deriving DecidableEq, Repr

/-- Chatbot.generate_response, with the retrieval results, the retriever's
source documents and the outcome of the fallible generation block (the
retriever and LLM invocations inside the try) as inputs. Returns the
result record together with the updated conversation history: the guardrail
branch and the exception branch leave the history unchanged; the success
branch appends the user query and the cleaned assistant answer. -/
def generate_response (q : String) (hist : List ChatMsg)
    (search_results : List SearchResult) (source_documents : List DocMeta)
    (llm : Except String String) : GenResult × List ChatMsg :=
  if (check_query_appropriateness q).1 = false then
    ({ response := (check_query_appropriateness q).2.getD "",
       sources := [], confidence := .low, context_used := false,
       guardrail_triggered := true, error := none }, hist)
  else
    match llm with
    | .error e =>
      ({ response := "I encountered an error: " ++ e ++ ". Please try again.",
         sources := [], confidence := .low, context_used := false,
         guardrail_triggered := false, error := some e }, hist)
    | .ok raw =>
      let response_text := cleanResponse raw
      let sources := validated_sources source_documents search_results
      let confidence := computeConfidence (search_results.map (·.distance))
      let hist2 := hist ++ [⟨"user", q⟩, ⟨"assistant", response_text⟩]
      ({ response := response_text, sources := sources,
         confidence := confidence,
         context_used := decide (0 < search_results.length),
         guardrail_triggered := false, error := none }, hist2)

/- ===================== concrete instances for witnesses ===================== -/

/-- Sum of the character lengths of the pieces, as an integer. -/
def pieceSumZ (ps : List String) : Int :=
  (ps.map (fun p => (p.length : Int))).sum

/-- Witness section document for the chunk splitter. -/
def exDoc1 : SplitDoc :=
  ⟨"GitLab is an all-remote company.", "https://handbook.gitlab.com/remote",
    "Remote Work", 0, 32⟩

/-- Counterexample document for the offset-bounds claim: a 60-character
section starting at offset 0. -/
def exDocC2 : SplitDoc :=
  ⟨"cccccccccccccccccccccccccccccccccccccccccccccccccccccccccccc".take 60,
    "https://handbook.gitlab.com/x", "Bounds", 0, 60⟩

/-- Counterexample pieces: a 2-character piece followed by a 12-character
piece, as the LangChain splitter produces when a short paragraph precedes
an overlong one (a piece may be far shorter than the 50-character overlap). -/
def exPiecesC2 : List String := ["ab", "cdefghijklmn"]

/-- A 50-character text block. -/
def exText50 : String := "aaaaaaaaaaaaaaaaaaaaaaaaaaaaaaaaaaaaaaaaaaaaaaaaaa"

/-- A 60-character text block. -/
def exText60 : String :=
  "bbbbbbbbbbbbbbbbbbbbbbbbbbbbbbbbbbbbbbbbbbbbbbbbbbbbbbbbbbbb"

/-- An 11-character heading text. -/
def exHeading : String := "Heading two"

/-- Counterexample element walk: a 50-character block, a heading, then a
60-character block. -/
def exElemsC4 : List PageElement :=
  [.block exText50, .heading exHeading, .block exText60]

/-- Counterexample fetch function for the crawl-dedup claim: A links to B
and C, fetching B always fails, C links to B. -/
def fetchExA : String → Option (List String)
  | "A" => some ["B", "C"]
  | "C" => some ["B"]
  | _ => none

/-- Counterexample fetch function for the crawl error-handling claim: P
links to Q and R, fetching Q always fails, R links to Q. -/
def fetchExP : String → Option (List String)
  | "P" => some ["Q", "R"]
  | "R" => some ["Q"]
  | _ => none

/-- Witness store already holding one document. -/
def exStore : List StoredDoc := [.plain ⟨"x", "https://h/x", "T", 0, 1⟩]

/-- Witness raw chunk. -/
def exChunk : RawChunk := ⟨"hello world, a chunk", "https://h/x", "T", 0, 20⟩

/-- Witness document metadata for a retrieved document. -/
def exDocMeta : DocMeta := ⟨"https://handbook.gitlab.com/a", "T", 0, 5⟩

/-- Witness formatted search result. -/
def exSearchRes : SearchResult :=
  ⟨"c", "https://about.gitlab.com/b", "T2", 0, 5, 0⟩

/- ===================== theorems ===================== -/

/- ===================== chunk splitter lemmas ===================== -/

lemma splitChunksGo_length (ov : Int) (url title : String) (os oe : Int)
    (total : Nat) :
    ∀ (ps : List String) (cur : Int) (i : Nat),
      (splitChunksGo ov url title os oe total ps cur i).length = ps.length := by
  intro ps
  induction ps with
  | nil => intro cur i; rfl
  | cons p ps ih => intro cur i; simp [splitChunksGo, ih]

lemma splitChunksGo_mem (ov : Int) (url title : String) (os oe : Int)
    (total : Nat) :
    ∀ (ps : List String) (cur : Int) (i : Nat),
      ∀ c ∈ splitChunksGo ov url title os oe total ps cur i,
        c.end_char = c.start_char + (c.content.length : Int) ∧
        c.total_chunks = total := by
  intro ps
  induction ps with
  | nil => intro cur i c hc; simp [splitChunksGo] at hc
  | cons p ps ih =>
    intro cur i c hc
    simp only [splitChunksGo, List.mem_cons] at hc
    rcases hc with rfl | hc
    · exact ⟨rfl, rfl⟩
    · exact ih _ _ c hc

lemma splitChunksGo_chain_step (ov : Int) (url title : String) (os oe : Int)
    (total : Nat) :
    ∀ (ps : List String) (cur : Int) (i : Nat),
      List.Chain' (fun a b => b.start_char = a.end_char - ov)
        (splitChunksGo ov url title os oe total ps cur i) := by
  intro ps
  induction ps with
  | nil => intro cur i; simp [splitChunksGo]
  | cons p ps ih =>
    intro cur i
    simp only [splitChunksGo]
    refine List.chain'_cons'.2 ⟨?_, ih _ _⟩
    intro y hy
    cases ps with
    | nil => simp [splitChunksGo] at hy
    | cons q qs =>
      simp only [splitChunksGo, List.head?_cons, Option.mem_def,
        Option.some.injEq] at hy
      subst hy
      rfl

lemma splitChunksGo_get_index (ov : Int) (url title : String) (os oe : Int)
    (total : Nat) :
    ∀ (ps : List String) (cur : Int) (i : Nat) (j : Nat)
      (h : j < (splitChunksGo ov url title os oe total ps cur i).length),
      ((splitChunksGo ov url title os oe total ps cur i).get ⟨j, h⟩).chunk_index
        = i + j := by
  intro ps
  induction ps with
  | nil => intro cur i j h; simp [splitChunksGo] at h
  | cons p ps ih =>
    intro cur i j h
    cases j with
    | zero => rfl
    | succ j =>
      have h2 : j < (splitChunksGo ov url title os oe total ps
          (cur + p.length - ov) (i + 1)).length := by
        simp only [splitChunksGo, List.length_cons] at h
        omega
      have step :
          ((splitChunksGo ov url title os oe total (p :: ps) cur i).get
              ⟨j + 1, h⟩).chunk_index
            = ((splitChunksGo ov url title os oe total ps
                (cur + p.length - ov) (i + 1)).get ⟨j, h2⟩).chunk_index := rfl
      rw [step, ih _ _ j h2]
      omega

lemma pieceSumZ_nil : pieceSumZ [] = 0 := rfl

lemma pieceSumZ_cons (p : String) (ps : List String) :
    pieceSumZ (p :: ps) = (p.length : Int) + pieceSumZ ps := by
  simp [pieceSumZ]

lemma pieceSumZ_ge (ov : Int) :
    ∀ ps : List String, (∀ p ∈ ps, ov ≤ (p.length : Int)) →
      ov * (ps.length : Int) ≤ pieceSumZ ps := by
  intro ps
  induction ps with
  | nil => intro _; simp [pieceSumZ_nil]
  | cons p ps ih =>
    intro h
    have h1 := h p (List.mem_cons_self _ _)
    have h2 := ih (fun q hq => h q (List.mem_cons_of_mem _ hq))
    rw [pieceSumZ_cons]
    simp only [List.length_cons]
    push_cast
    nlinarith

lemma splitChunksGo_mono_chain (ov : Int) (url title : String) (os oe : Int)
    (total : Nat) :
    ∀ (ps : List String) (cur : Int) (i : Nat),
      (∀ p ∈ ps, ov ≤ (p.length : Int)) →
      List.Chain' (fun a b => a.start_char ≤ b.start_char)
        (splitChunksGo ov url title os oe total ps cur i) := by
  intro ps
  induction ps with
  | nil => intro cur i _; simp [splitChunksGo]
  | cons p ps ih =>
    intro cur i h
    simp only [splitChunksGo]
    refine List.chain'_cons'.2 ⟨?_, ih _ _ (fun q hq => h q (List.mem_cons_of_mem _ hq))⟩
    intro y hy
    cases ps with
    | nil => simp [splitChunksGo] at hy
    | cons q qs =>
      simp only [splitChunksGo, List.head?_cons, Option.mem_def,
        Option.some.injEq] at hy
      subst hy
      have := h p (List.mem_cons_self _ _)
      simp only []
      omega

lemma splitChunksGo_bounds (ov : Int) (url title : String) (os oe : Int)
    (total : Nat) (s B : Int) :
    ∀ (ps : List String) (cur : Int) (i : Nat),
      (∀ p ∈ ps, ov ≤ (p.length : Int)) →
      s ≤ cur →
      cur + pieceSumZ ps - ov * ((ps.length : Int) - 1) ≤ B →
      ∀ c ∈ splitChunksGo ov url title os oe total ps cur i,
        s ≤ c.start_char ∧ c.end_char ≤ B := by
  intro ps
  induction ps with
  | nil => intro cur i _ _ _ c hc; simp [splitChunksGo] at hc
  | cons p ps ih =>
    intro cur i hp hs hb c hc
    have hrest : ∀ q ∈ ps, ov ≤ (q.length : Int) :=
      fun q hq => hp q (List.mem_cons_of_mem _ hq)
    have hsum := pieceSumZ_ge ov ps hrest
    have hb' : cur + (p.length : Int) + pieceSumZ ps
        - ov * (ps.length : Int) ≤ B := by
      rw [pieceSumZ_cons] at hb
      simp only [List.length_cons] at hb
      push_cast at hb ⊢
      linarith
    simp only [splitChunksGo, List.mem_cons] at hc
    rcases hc with rfl | hc
    · constructor
      · exact hs
      · simp only []
        linarith
    · have hcur' : s ≤ cur + (p.length : Int) - ov := by
        have := hp p (List.mem_cons_self _ _)
        linarith
      have hb'' : (cur + (p.length : Int) - ov) + pieceSumZ ps
          - ov * ((ps.length : Int) - 1) ≤ B := by
        push_cast at hb' ⊢
        linarith
      exact ih _ (i + 1) hrest hcur' hb'' c hc

/-- C1: for every Section document split into pieces, the emitted chunks
satisfy the offset recurrence of _split_with_metadata_preservation: the
chunk list has one chunk per piece; each chunk's end_char is its start_char
plus its piece's character length and its total_chunks is the number of
pieces; the first chunk starts at the parent document's start_char; each
subsequent chunk starts at the previous chunk's end_char minus the
configured overlap; chunk_index equals the chunk's position; and a document
whose pieces are exactly its whole content yields one chunk spanning
start_char to start_char plus the content length with chunk_index 0 and
total_chunks 1. -/
theorem c1_chunk_offset_recurrence (ov : Int) (doc : SplitDoc)
    (pieces : List String) :
    (splitDoc ov doc pieces).length = pieces.length
  ∧ (∀ c ∈ splitDoc ov doc pieces,
      c.end_char = c.start_char + (c.content.length : Int) ∧
      c.total_chunks = pieces.length)
  ∧ (∀ c, (splitDoc ov doc pieces).head? = some c →
      c.start_char = doc.start_char)
  ∧ List.Chain' (fun a b => b.start_char = a.end_char - ov)
      (splitDoc ov doc pieces)
  ∧ (∀ (j : Nat) (h : j < (splitDoc ov doc pieces).length),
      ((splitDoc ov doc pieces).get ⟨j, h⟩).chunk_index = j)
  ∧ (pieces = [doc.content] →
      splitDoc ov doc pieces =
        [⟨doc.content, doc.source_url, doc.section_title, doc.start_char,
          doc.start_char + (doc.content.length : Int), 0, 1,
          doc.start_char, doc.end_char⟩]) := by
  refine ⟨splitChunksGo_length ov _ _ _ _ _ pieces _ 0,
    splitChunksGo_mem ov _ _ _ _ _ pieces _ 0, ?_,
    splitChunksGo_chain_step ov _ _ _ _ _ pieces _ 0, ?_, ?_⟩
  · intro c hc
    cases pieces with
    | nil => simp [splitDoc, splitChunksGo] at hc
    | cons p ps =>
      simp only [splitDoc, splitChunksGo, List.head?_cons,
        Option.some.injEq] at hc
      rw [← hc]
  · intro j h
    simpa using splitChunksGo_get_index ov doc.source_url doc.section_title
      doc.start_char doc.end_char pieces.length pieces doc.start_char 0 j h
  · intro hp
    subst hp
    simp [splitDoc, splitChunksGo]

/-- Witness for C1 at a concrete one-piece document. -/
theorem c1_witness :
    splitDoc 50 exDoc1 [exDoc1.content] =
      [⟨exDoc1.content, exDoc1.source_url, exDoc1.section_title,
        exDoc1.start_char, exDoc1.start_char + (exDoc1.content.length : Int),
        0, 1, exDoc1.start_char, exDoc1.end_char⟩]
  ∧ ((splitDoc 50 exDoc1 [exDoc1.content]).get ⟨0, by decide⟩).chunk_index = 0
  ∧ (∀ c, (splitDoc 50 exDoc1 [exDoc1.content]).head? = some c →
      c.start_char = exDoc1.start_char) := by
  refine ⟨(c1_chunk_offset_recurrence 50 exDoc1 [exDoc1.content]).2.2.2.2.2 rfl,
    (c1_chunk_offset_recurrence 50 exDoc1 [exDoc1.content]).2.2.2.2.1 0 (by decide),
    (c1_chunk_offset_recurrence 50 exDoc1 [exDoc1.content]).2.2.1⟩

/-- Counterexample for C2: with the configured overlap of 50 characters, a
piece shorter than the overlap makes the next chunk's start_char strictly
decrease and fall below the parent Section's own start_char, so offsets do
regress and leave the section's bounds. -/
theorem c2_counterexample :
    ((splitDoc 50 exDocC2 exPiecesC2).getD 1 default).start_char <
      ((splitDoc 50 exDocC2 exPiecesC2).getD 0 default).start_char
  ∧ ((splitDoc 50 exDocC2 exPiecesC2).getD 1 default).start_char <
      exDocC2.start_char
  ∧ ¬ (List.Chain' (fun a b => a.start_char ≤ b.start_char)
        (splitDoc 50 exDocC2 exPiecesC2)
      ∧ ∀ c ∈ splitDoc 50 exDocC2 exPiecesC2,
          exDocC2.start_char ≤ c.start_char ∧
          c.end_char ≤ exDocC2.start_char + (exDocC2.content.length : Int)) := by
  refine ⟨by decide, by decide, ?_⟩
  intro h
  have := h.2 ((splitDoc 50 exDocC2 exPiecesC2).getD 1 default) (by decide)
  revert this
  decide

/-- C2 amended: the backward step of each chunk's start_char relative to
the previous chunk's end_char is always exactly the configured overlap
(hence bounded by it); and provided every piece is at least overlap-many
characters long and the pieces' total length is at most the content length
plus overlap times (pieces - 1), chunk start offsets never decrease and all
chunk offsets stay within the parent Section's own content bounds. -/
theorem c2_amended_offset_bounds (ov : Int) (doc : SplitDoc)
    (pieces : List String)
    (hp : ∀ p ∈ pieces, ov ≤ (p.length : Int))
    (hcover : pieceSumZ pieces ≤
      (doc.content.length : Int) + ov * ((pieces.length : Int) - 1)) :
    List.Chain' (fun a b => a.start_char ≤ b.start_char)
      (splitDoc ov doc pieces)
  ∧ (∀ c ∈ splitDoc ov doc pieces,
      doc.start_char ≤ c.start_char ∧
      c.end_char ≤ doc.start_char + (doc.content.length : Int))
  ∧ List.Chain' (fun a b => b.start_char = a.end_char - ov)
      (splitDoc ov doc pieces) := by
  refine ⟨splitChunksGo_mono_chain ov _ _ _ _ _ pieces _ 0 hp, ?_,
    splitChunksGo_chain_step ov _ _ _ _ _ pieces _ 0⟩
  exact splitChunksGo_bounds ov doc.source_url doc.section_title
    doc.start_char doc.end_char pieces.length doc.start_char
    (doc.start_char + (doc.content.length : Int)) pieces doc.start_char 0 hp
    (le_refl _) (by linarith)

set_option maxRecDepth 4000 in
/-- Witness for the amended C2 at a concrete single 60-character piece. -/
theorem c2_witness :
    List.Chain' (fun a b => a.start_char ≤ b.start_char)
      (splitDoc 50 exDocC2 [exDocC2.content])
  ∧ (∀ c ∈ splitDoc 50 exDocC2 [exDocC2.content],
      exDocC2.start_char ≤ c.start_char ∧
      c.end_char ≤ exDocC2.start_char + (exDocC2.content.length : Int)) := by
  have h := c2_amended_offset_bounds 50 exDocC2 [exDocC2.content]
    (by decide) (by decide)
  exact ⟨h.1, h.2.1⟩

/- ===================== section extractor lemmas ===================== -/

lemma flushSection_snd_ge (url title : String) (acc : List String)
    (off : Nat) : off ≤ (flushSection url title acc off).2 := by
  simp only [flushSection]
  split_ifs <;> simp

lemma flushSection_cases (url title : String) (acc : List String)
    (off : Nat) :
    ((flushSection url title acc off).1 = [] ∧
      (flushSection url title acc off).2 = off)
  ∨ (∃ s : SectionRec, (flushSection url title acc off).1 = [s] ∧
      s.start_char = off ∧ s.end_char = off + s.content.length ∧
      (flushSection url title acc off).2 = s.end_char ∧
      50 < s.content.length) := by
  simp only [flushSection]
  split_ifs with h1 h2
  · exact Or.inl ⟨rfl, rfl⟩
  · exact Or.inr ⟨⟨url, title, off, off + (pyJoin " " acc).length,
      pyJoin " " acc⟩, rfl, rfl, rfl, rfl, h2⟩
  · exact Or.inl ⟨rfl, rfl⟩

lemma extractLoop_mem (url : String) :
    ∀ (es : List PageElement) (title : String) (acc : List String)
      (off : Nat), ∀ s ∈ extractLoop url es title acc off,
      s.end_char = s.start_char + s.content.length ∧
      off ≤ s.start_char ∧ 50 < s.content.length := by
  intro es
  induction es with
  | nil =>
    intro title acc off s hs
    simp only [extractLoop] at hs
    rcases flushSection_cases url title acc off with ⟨h1, _⟩ | ⟨t, h1, h2, h3, _, h5⟩
    · rw [h1] at hs; simp at hs
    · rw [h1] at hs
      simp only [List.mem_singleton] at hs
      subst hs
      exact ⟨by rw [h2]; exact h3, le_of_eq h2.symm, h5⟩
  | cons e es ih =>
    intro title acc off s hs
    cases e with
    | heading t =>
      by_cases ht : t.length < 10
      · simp only [extractLoop, if_pos ht] at hs
        exact ih title acc off s hs
      · simp only [extractLoop, if_neg ht, List.mem_append] at hs
        rcases hs with hs | hs
        · rcases flushSection_cases url title acc off with ⟨h1, _⟩ | ⟨u, h1, h2, h3, _, h5⟩
          · rw [h1] at hs; simp at hs
          · rw [h1] at hs
            simp only [List.mem_singleton] at hs
            subst hs
            exact ⟨by rw [h2]; exact h3, le_of_eq h2.symm, h5⟩
        · have := ih t [] (flushSection url title acc off).2 s hs
          exact ⟨this.1, le_trans (flushSection_snd_ge url title acc off) this.2.1,
            this.2.2⟩
    | block t =>
      by_cases ht : t.length < 10
      · simp only [extractLoop, if_pos ht] at hs
        exact ih title acc off s hs
      · simp only [extractLoop, if_neg ht] at hs
        exact ih title (acc ++ [t]) off s hs

lemma extractLoop_chain (url : String) :
    ∀ (es : List PageElement) (title : String) (acc : List String)
      (off : Nat),
      List.Chain' (fun a b => a.end_char ≤ b.start_char)
        (extractLoop url es title acc off) := by
  intro es
  induction es with
  | nil =>
    intro title acc off
    simp only [extractLoop]
    rcases flushSection_cases url title acc off with ⟨h1, _⟩ | ⟨u, h1, _⟩
    · rw [h1]; exact List.chain'_nil
    · rw [h1]; exact List.chain'_singleton _
  | cons e es ih =>
    intro title acc off
    cases e with
    | heading t =>
      by_cases ht : t.length < 10
      · simp only [extractLoop, if_pos ht]; exact ih title acc off
      · simp only [extractLoop, if_neg ht]
        rcases flushSection_cases url title acc off with ⟨h1, _⟩ | ⟨u, h1, _, _, h4, _⟩
        · rw [h1]
          simpa using ih t [] (flushSection url title acc off).2
        · rw [h1]
          refine List.chain'_cons'.2 ⟨?_, ih t [] (flushSection url title acc off).2⟩
          intro y hy
          have hmem : y ∈ extractLoop url es t [] (flushSection url title acc off).2 :=
            List.mem_of_mem_head? hy
          have := (extractLoop_mem url es t [] (flushSection url title acc off).2 y hmem).2.1
          omega
    | block t =>
      by_cases ht : t.length < 10
      · simp only [extractLoop, if_pos ht]; exact ih title acc off
      · simp only [extractLoop, if_neg ht]; exact ih title (acc ++ [t]) off

/-- C3: every Section returned by extract_sections satisfies
end_char - start_char = content length, and across the returned Sections
in document order each Section's start_char is at least the previous
Section's end_char, so offsets are non-decreasing and ranges do not
overlap. -/
theorem c3_section_offsets (url : String) (elements : List PageElement)
    (all_text : String) :
    (∀ s ∈ extract_sections url elements all_text,
      s.end_char = s.start_char + s.content.length)
  ∧ List.Chain' (fun a b => a.end_char ≤ b.start_char)
      (extract_sections url elements all_text) := by
  simp only [extract_sections]
  split_ifs with h1 h2
  · constructor
    · intro s hs
      simp only [List.mem_singleton] at hs
      subst hs
      simp
    · exact List.chain'_singleton _
  · exact ⟨by intro s hs; simp at hs, List.chain'_nil⟩
  · exact ⟨fun s hs => (extractLoop_mem url elements "Introduction" [] 0 s hs).1,
      extractLoop_chain url elements "Introduction" [] 0⟩

/-- Witness for C3 at a concrete one-block page. -/
theorem c3_witness :
    ((extract_sections "u" [PageElement.block exText60] "").getD 0
        default).end_char
      = ((extract_sections "u" [PageElement.block exText60] "").getD 0
          default).start_char
        + ((extract_sections "u" [PageElement.block exText60] "").getD 0
            default).content.length := by
  exact (c3_section_offsets "u" [PageElement.block exText60] "").1 _ (by decide)

/-- Counterexample for C4: a section boundary whose accumulated text has
length exactly 50 does not emit a Section (the code requires strictly more
than 50 characters): walking a 50-character block, a heading and a
60-character block yields only the single Section for the second block. -/
theorem c4_counterexample :
    (pyJoin " " [exText50]).length = 50
  ∧ extract_sections "u" exElemsC4 "" = [⟨"u", exHeading, 0, 60, exText60⟩] := by
  exact ⟨by decide, by decide⟩

/-- C4 amended: at a section boundary the extractor emits a Section exactly
when the accumulated section text is nonempty and its joined length is
strictly greater than 50 characters; accumulated text of exactly 50
characters is dropped, and consequently every emitted Section's content is
longer than 50 characters. -/
theorem c4_amended_emission_threshold (url title : String)
    (acc : List String) (off : Nat) (elements : List PageElement)
    (all_text : String) :
    ((flushSection url title acc off).1 ≠ [] ↔
      (acc ≠ [] ∧ 50 < (pyJoin " " acc).length))
  ∧ (∀ s ∈ extract_sections url elements all_text,
      50 < s.content.length) := by
  constructor
  · simp only [flushSection]
    split_ifs with h1 h2
    · simp [h1]
    · simp [h1, h2]
    · simp [h1, h2]
  · intro s hs
    simp only [extract_sections] at hs
    split_ifs at hs with h1 h2
    · simp only [List.mem_singleton] at hs
      subst hs
      exact h2
    · simp at hs
    · exact (extractLoop_mem url elements "Introduction" [] 0 s hs).2.2

/-- Witness for the amended C4: a 60-character accumulated text does emit,
and the emitted concrete Section's content is longer than 50 characters. -/
theorem c4_witness :
    (flushSection "u" "t" [exText60] 0).1 ≠ []
  ∧ 50 < ((extract_sections "u" [PageElement.block exText60] "").getD 0
      default).content.length := by
  refine ⟨(c4_amended_emission_threshold "u" "t" [exText60] 0 [] "").1.mpr
    ⟨by decide, by decide⟩, ?_⟩
  exact (c4_amended_emission_threshold "u" "t" [exText60] 0
    [PageElement.block exText60] "").2 _ (by decide)

/- ===================== crawl lemmas ===================== -/

lemma crawlLoop_visited_append (fetch : String → Option (List String))
    (maxP : Nat) :
    ∀ (us visited next : List String),
      ∃ extra, (crawlLoop fetch maxP us visited next).visited
        = visited ++ extra := by
  intro us
  induction us with
  | nil => intro visited next; exact ⟨[], by simp [crawlLoop]⟩
  | cons u us ih =>
    intro visited next
    by_cases h1 : u ∈ visited
    · simpa [crawlLoop, h1] using ih visited next
    · by_cases h2 : maxP ≤ visited.length
      · exact ⟨[], by simp [crawlLoop, h1, h2]⟩
      · cases hf : fetch u with
        | none =>
          simpa [crawlLoop, h1, h2, hf] using ih visited next
        | some links =>
          obtain ⟨extra, he⟩ := ih (visited ++ [u])
            (addLinks links (visited ++ [u]) next)
          refine ⟨[u] ++ extra, ?_⟩
          simp [crawlLoop, h1, h2, hf, he]

lemma crawlLoop_visited_le (fetch : String → Option (List String))
    (maxP : Nat) :
    ∀ (us visited next : List String), visited.length ≤ maxP →
      (crawlLoop fetch maxP us visited next).visited.length ≤ maxP := by
  intro us
  induction us with
  | nil => intro visited next h; simpa [crawlLoop] using h
  | cons u us ih =>
    intro visited next h
    by_cases h1 : u ∈ visited
    · simpa [crawlLoop, h1] using ih visited next h
    · by_cases h2 : maxP ≤ visited.length
      · simpa [crawlLoop, h1, h2] using h
      · cases hf : fetch u with
        | none => simpa [crawlLoop, h1, h2, hf] using ih visited next h
        | some links =>
          have : (visited ++ [u]).length ≤ maxP := by
            simp only [List.length_append, List.length_singleton]
            omega
          simpa [crawlLoop, h1, h2, hf] using
            ih (visited ++ [u]) (addLinks links (visited ++ [u]) next) this

lemma crawlLoop_success_dedup (fetch : String → Option (List String))
    (maxP : Nat) (u : String) (hu : fetch u ≠ none) :
    ∀ (us visited next : List String),
      ((u ∈ visited → (crawlLoop fetch maxP us visited next).attempts.count u = 0)
    ∧ (crawlLoop fetch maxP us visited next).attempts.count u ≤ 1
    ∧ (u ∈ (crawlLoop fetch maxP us visited next).attempts →
        u ∈ (crawlLoop fetch maxP us visited next).visited)) := by
  intro us
  induction us with
  | nil =>
    intro visited next
    refine ⟨fun _ => by simp [crawlLoop], by simp [crawlLoop], ?_⟩
    intro h
    simp [crawlLoop] at h
  | cons v us ih =>
    intro visited next
    by_cases h1 : v ∈ visited
    · simpa [crawlLoop, h1] using ih visited next
    · by_cases h2 : maxP ≤ visited.length
      · refine ⟨fun _ => by simp [crawlLoop, h1, h2], by simp [crawlLoop, h1, h2], ?_⟩
        intro h
        simp [crawlLoop, h1, h2] at h
      · cases hf : fetch v with
        | none =>
          have hvu : v ≠ u := by
            intro he
            subst he
            exact hu hf
          have := ih visited next
          refine ⟨?_, ?_, ?_⟩
          · intro hm
            simp [crawlLoop, h1, h2, hf, List.count_cons, hvu, this.1 hm]
          · simp only [crawlLoop, h1, h2, hf]
            simpa [List.count_cons, hvu] using this.2.1
          · intro hm
            simp only [crawlLoop] at hm ⊢
            simp [h1, h2, hf] at hm ⊢
            rcases hm with he | hm
            · exact absurd he.symm hvu
            · exact this.2.2 hm
        | some links =>
          by_cases hvu : v = u
          · subst hvu
            have hrec := ih (visited ++ [v]) (addLinks links (visited ++ [v]) next)
            have hin : v ∈ visited ++ [v] := by simp
            have hz := hrec.1 hin
            refine ⟨fun hm => absurd hm h1, ?_, ?_⟩
            · simp [crawlLoop, h1, h2, hf, List.count_cons, hz]
            · intro _
              simp only [crawlLoop, h1, h2, hf]
              obtain ⟨extra, he⟩ := crawlLoop_visited_append fetch maxP us
                (visited ++ [v]) (addLinks links (visited ++ [v]) next)
              rw [he]
              simp
          · have hrec := ih (visited ++ [v]) (addLinks links (visited ++ [v]) next)
            refine ⟨?_, ?_, ?_⟩
            · intro hm
              have : u ∈ visited ++ [v] := by simp [hm]
              simp [crawlLoop, h1, h2, hf, List.count_cons, hvu, hrec.1 this]
            · simp only [crawlLoop, h1, h2, hf]
              have : (u == v) = false := by
                simp [hvu]
                intro he
                exact hvu he.symm
              simpa [List.count_cons, hvu] using hrec.2.1
            · intro hm
              simp only [crawlLoop] at hm ⊢
              simp [h1, h2, hf] at hm ⊢
              rcases hm with he | hm
              · exact absurd he.symm hvu
              · exact hrec.2.2 hm

lemma crawlLoop_toScrape_success (fetch : String → Option (List String))
    (maxP : Nat) :
    ∀ (us visited next : List String),
      ∀ v ∈ (crawlLoop fetch maxP us visited next).toScrape,
        fetch v ≠ none := by
  intro us
  induction us with
  | nil => intro visited next v hv; simp [crawlLoop] at hv
  | cons u us ih =>
    intro visited next v hv
    by_cases h1 : u ∈ visited
    · rw [show crawlLoop fetch maxP (u :: us) visited next
          = crawlLoop fetch maxP us visited next from by simp [crawlLoop, h1]] at hv
      exact ih visited next v hv
    · by_cases h2 : maxP ≤ visited.length
      · simp [crawlLoop, h1, h2] at hv
      · cases hf : fetch u with
        | none =>
          rw [show crawlLoop fetch maxP (u :: us) visited next
              = ⟨(crawlLoop fetch maxP us visited next).toScrape,
                 (crawlLoop fetch maxP us visited next).visited,
                 (crawlLoop fetch maxP us visited next).next,
                 u :: (crawlLoop fetch maxP us visited next).attempts⟩ from by
            simp [crawlLoop, h1, h2, hf]] at hv
          exact ih visited next v hv
        | some links =>
          simp [crawlLoop, h1, h2, hf] at hv
          rcases hv with rfl | hv
          · simp [hf]
          · exact ih _ _ v hv

lemma crawl_recursive_zero (fetch : String → Option (List String))
    (maxD maxP : Nat) (start : List String) (depth : Nat)
    (visited : List String) :
    crawl_recursive fetch maxD maxP 0 start depth visited =
      if maxD < depth ∨ maxP ≤ visited.length then ⟨[], visited, []⟩
      else ⟨(crawlLoop fetch maxP start visited []).toScrape,
            (crawlLoop fetch maxP start visited []).visited,
            (crawlLoop fetch maxP start visited []).attempts⟩ := by
  rw [crawl_recursive]
  split_ifs with h1
  · rfl
  · dsimp only
    split_ifs <;> rfl

lemma crawl_recursive_succ (fetch : String → Option (List String))
    (maxD maxP : Nat) (gas : Nat) (start : List String) (depth : Nat)
    (visited : List String) :
    crawl_recursive fetch maxD maxP (gas + 1) start depth visited =
      if maxD < depth ∨ maxP ≤ visited.length then ⟨[], visited, []⟩
      else
        if (crawlLoop fetch maxP start visited []).next ≠ [] ∧
            depth < maxD ∧
            (crawlLoop fetch maxP start visited []).visited.length < maxP then
          ⟨(crawlLoop fetch maxP start visited []).toScrape ++
             (crawl_recursive fetch maxD maxP gas
               (crawlLoop fetch maxP start visited []).next (depth + 1)
               (crawlLoop fetch maxP start visited []).visited).toScrape,
           (crawl_recursive fetch maxD maxP gas
             (crawlLoop fetch maxP start visited []).next (depth + 1)
             (crawlLoop fetch maxP start visited []).visited).visited,
           (crawlLoop fetch maxP start visited []).attempts ++
             (crawl_recursive fetch maxD maxP gas
               (crawlLoop fetch maxP start visited []).next (depth + 1)
               (crawlLoop fetch maxP start visited []).visited).attempts⟩
        else ⟨(crawlLoop fetch maxP start visited []).toScrape,
              (crawlLoop fetch maxP start visited []).visited,
              (crawlLoop fetch maxP start visited []).attempts⟩ := by
  rw [crawl_recursive]

lemma crawl_recursive_halt (fetch : String → Option (List String))
    (maxD maxP : Nat) (gas : Nat) (start : List String) (depth : Nat)
    (visited : List String) (h : maxP ≤ visited.length) :
    crawl_recursive fetch maxD maxP gas start depth visited
      = ⟨[], visited, []⟩ := by
  cases gas with
  | zero => rw [crawl_recursive_zero]; simp [h]
  | succ gas => rw [crawl_recursive_succ]; simp [h]

lemma crawl_recursive_visited_append (fetch : String → Option (List String))
    (maxD maxP : Nat) :
    ∀ (gas : Nat) (start : List String) (depth : Nat)
      (visited : List String),
      ∃ extra, (crawl_recursive fetch maxD maxP gas start depth
        visited).visited = visited ++ extra := by
  intro gas
  induction gas with
  | zero =>
    intro start depth visited
    rw [crawl_recursive_zero]
    split_ifs with h1
    · exact ⟨[], by simp⟩
    · exact crawlLoop_visited_append fetch maxP start visited []
  | succ gas ih =>
    intro start depth visited
    rw [crawl_recursive_succ]
    split_ifs with h1 h2
    · exact ⟨[], by simp⟩
    · obtain ⟨e1, he1⟩ := crawlLoop_visited_append fetch maxP start visited []
      obtain ⟨e2, he2⟩ := ih (crawlLoop fetch maxP start visited []).next
        (depth + 1) (crawlLoop fetch maxP start visited []).visited
      refine ⟨e1 ++ e2, ?_⟩
      dsimp only
      rw [he2, he1, List.append_assoc]
    · exact crawlLoop_visited_append fetch maxP start visited []

lemma crawl_recursive_visited_le (fetch : String → Option (List String))
    (maxD maxP : Nat) :
    ∀ (gas : Nat) (start : List String) (depth : Nat)
      (visited : List String), visited.length ≤ maxP →
      (crawl_recursive fetch maxD maxP gas start depth
        visited).visited.length ≤ maxP := by
  intro gas
  induction gas with
  | zero =>
    intro start depth visited h
    rw [crawl_recursive_zero]
    split_ifs with h1
    · simpa using h
    · exact crawlLoop_visited_le fetch maxP start visited [] h
  | succ gas ih =>
    intro start depth visited h
    rw [crawl_recursive_succ]
    split_ifs with h1 h2
    · simpa using h
    · exact ih (crawlLoop fetch maxP start visited []).next (depth + 1)
        (crawlLoop fetch maxP start visited []).visited
        (crawlLoop_visited_le fetch maxP start visited [] h)
    · exact crawlLoop_visited_le fetch maxP start visited [] h

lemma crawl_recursive_success_dedup (fetch : String → Option (List String))
    (maxD maxP : Nat) (u : String) (hu : fetch u ≠ none) :
    ∀ (gas : Nat) (start : List String) (depth : Nat)
      (visited : List String),
      ((u ∈ visited → (crawl_recursive fetch maxD maxP gas start depth
          visited).attempts.count u = 0)
    ∧ (crawl_recursive fetch maxD maxP gas start depth
        visited).attempts.count u ≤ 1
    ∧ (u ∈ (crawl_recursive fetch maxD maxP gas start depth
          visited).attempts →
        u ∈ (crawl_recursive fetch maxD maxP gas start depth
          visited).visited)) := by
  intro gas
  induction gas with
  | zero =>
    intro start depth visited
    rw [crawl_recursive_zero]
    split_ifs with h1
    · refine ⟨fun _ => by simp, by simp, ?_⟩
      intro h
      simp at h
    · exact crawlLoop_success_dedup fetch maxP u hu start visited []
  | succ gas ih =>
    intro start depth visited
    rw [crawl_recursive_succ]
    split_ifs with h1 h2
    · refine ⟨fun _ => by simp, by simp, ?_⟩
      intro h
      simp at h
    · have hl := crawlLoop_success_dedup fetch maxP u hu start visited []
      have hr := ih (crawlLoop fetch maxP start visited []).next (depth + 1)
        (crawlLoop fetch maxP start visited []).visited
      obtain ⟨e1, he1⟩ := crawlLoop_visited_append fetch maxP start visited []
      obtain ⟨e2, he2⟩ := crawl_recursive_visited_append fetch maxD maxP gas
        (crawlLoop fetch maxP start visited []).next (depth + 1)
        (crawlLoop fetch maxP start visited []).visited
      refine ⟨?_, ?_, ?_⟩
      · intro hm
        have hm1 : u ∈ (crawlLoop fetch maxP start visited []).visited := by
          rw [he1]; exact List.mem_append_left _ hm
        simp [List.count_append, hl.1 hm, hr.1 hm1]
      · simp only [CrawlResult.attempts, List.count_append]
        by_cases hc : (crawlLoop fetch maxP start visited []).attempts.count u = 0
        · have := hr.2.1
          omega
        · have hpos : 0 < (crawlLoop fetch maxP start visited []).attempts.count u := by
            omega
          have hmem : u ∈ (crawlLoop fetch maxP start visited []).attempts :=
            List.count_pos_iff.mp hpos
          have hv : u ∈ (crawlLoop fetch maxP start visited []).visited :=
            hl.2.2 hmem
          have := hr.1 hv
          have := hl.2.1
          omega
      · intro hm
        simp only [CrawlResult.attempts, List.mem_append] at hm
        simp only [CrawlResult.visited]
        rcases hm with hm | hm
        · have hv : u ∈ (crawlLoop fetch maxP start visited []).visited :=
            hl.2.2 hm
          rw [he2]
          exact List.mem_append_left _ hv
        · exact hr.2.2 hm
    · exact crawlLoop_success_dedup fetch maxP u hu start visited []

lemma crawl_recursive_toScrape_success (fetch : String → Option (List String))
    (maxD maxP : Nat) :
    ∀ (gas : Nat) (start : List String) (depth : Nat)
      (visited : List String),
      ∀ v ∈ (crawl_recursive fetch maxD maxP gas start depth
        visited).toScrape, fetch v ≠ none := by
  intro gas
  induction gas with
  | zero =>
    intro start depth visited v hv
    rw [crawl_recursive_zero] at hv
    split_ifs at hv with h1
    · simp at hv
    · exact crawlLoop_toScrape_success fetch maxP start visited [] v hv
  | succ gas ih =>
    intro start depth visited v hv
    rw [crawl_recursive_succ] at hv
    split_ifs at hv with h1 h2
    · simp at hv
    · simp only [CrawlResult.toScrape, List.mem_append] at hv
      rcases hv with hv | hv
      · exact crawlLoop_toScrape_success fetch maxP start visited [] v hv
      · exact ih _ _ _ v hv
    · exact crawlLoop_toScrape_success fetch maxP start visited [] v hv

lemma crawlLoop_failed_cons (fetch : String → Option (List String))
    (maxP : Nat) (u : String) (us visited next : List String)
    (hf : fetch u = none) (hv : u ∉ visited)
    (hp : visited.length < maxP) :
    crawlLoop fetch maxP (u :: us) visited next =
      ⟨(crawlLoop fetch maxP us visited next).toScrape,
       (crawlLoop fetch maxP us visited next).visited,
       (crawlLoop fetch maxP us visited next).next,
       u :: (crawlLoop fetch maxP us visited next).attempts⟩ := by
  have hp' : ¬ maxP ≤ visited.length := by omega
  simp [crawlLoop, hv, hp', hf]

/-- Counterexample for C5: with fetch function fetchExA (A links to B and
C, fetching B always fails, C links to B), the crawl run started at A
issues the discovery fetch for the normalized URL B twice, because a failed
fetch does not mark the URL visited and C rediscovers it. -/
theorem c5_counterexample :
    (crawl_recursive fetchExA 3 100 3 ["A"] 0 []).attempts
      = ["A", "B", "C", "B"]
  ∧ ¬ (crawl_recursive fetchExA 3 100 3 ["A"] 0 []).attempts.Nodup := by
  exact ⟨by decide, by decide⟩

/-- C5 amended: in every crawl run, a URL whose fetch succeeds is fetched
at most once (the visited set deduplicates it as soon as it is fetched);
the visited set never grows beyond maxPages when it starts within budget;
and once the visited set's size has reached maxPages, the crawl returns at
once without fetching anything. A URL whose fetch fails is not marked
visited and may be fetched again if rediscovered later. -/
theorem c5_amended_crawl_dedup (fetch : String → Option (List String))
    (maxD maxP : Nat) (startUrl : String) :
    (∀ u, fetch u ≠ none →
      (find_all_pages fetch maxD maxP startUrl).attempts.count u ≤ 1)
  ∧ (find_all_pages fetch maxD maxP startUrl).visited.length ≤ maxP
  ∧ (∀ (gas : Nat) (start : List String) (depth : Nat)
      (visited : List String), maxP ≤ visited.length →
      crawl_recursive fetch maxD maxP gas start depth visited
        = ⟨[], visited, []⟩) := by
  refine ⟨?_, ?_, ?_⟩
  · intro u hu
    exact (crawl_recursive_success_dedup fetch maxD maxP u hu maxD
      [startUrl] 0 []).2.1
  · exact crawl_recursive_visited_le fetch maxD maxP maxD [startUrl] 0 []
      (by simp)
  · intro gas start depth visited h
    exact crawl_recursive_halt fetch maxD maxP gas start depth visited h

/-- Witness for the amended C5 at the concrete fetch function fetchExA. -/
theorem c5_witness :
    (find_all_pages fetchExA 3 100 "A").attempts.count "A" ≤ 1
  ∧ (find_all_pages fetchExA 3 100 "A").visited.length ≤ 100
  ∧ crawl_recursive fetchExA 3 2 1 ["B"] 1 ["X", "Y"]
      = ⟨[], ["X", "Y"], []⟩ := by
  refine ⟨(c5_amended_crawl_dedup fetchExA 3 100 "A").1 "A" (by decide),
    (c5_amended_crawl_dedup fetchExA 3 100 "A").2.1,
    (c5_amended_crawl_dedup fetchExA 3 2 "A").2.2 1 ["B"] 1 ["X", "Y"]
      (by decide)⟩

/-- Counterexample for C6: with fetch function fetchExP (P links to Q and
R, fetching Q always raises, R links to Q), the URL Q whose fetch fails is
retried later in the same crawl run: its fetch is attempted twice. -/
theorem c6_counterexample :
    fetchExP "Q" = none
  ∧ (crawl_recursive fetchExP 3 100 3 ["P"] 0 []).attempts.count "Q" = 2 := by
  exact ⟨rfl, by decide⟩

/-- C6 amended: a URL whose discovery fetch fails contributes no links and
is skipped: the crawl on a frontier starting with a failing URL behaves
exactly as on the rest of the frontier except that the failed fetch attempt
is recorded, so the failed URL is not collected for scraping and is not
marked visited (hence it may be fetched again if rediscovered later), the
crawl continues with the remaining frontier, and no exception propagates;
moreover every URL in the returned list had a successful fetch. -/
theorem c6_amended_failed_fetch (fetch : String → Option (List String))
    (maxD maxP : Nat) :
    (∀ (u : String) (rest : List String) (gas depth : Nat)
      (visited : List String), fetch u = none → u ∉ visited →
      visited.length < maxP → depth ≤ maxD →
      crawl_recursive fetch maxD maxP gas (u :: rest) depth visited =
        ⟨(crawl_recursive fetch maxD maxP gas rest depth visited).toScrape,
         (crawl_recursive fetch maxD maxP gas rest depth visited).visited,
         u :: (crawl_recursive fetch maxD maxP gas rest depth
           visited).attempts⟩)
  ∧ (∀ (gas : Nat) (start : List String) (depth : Nat)
      (visited : List String),
      ∀ v ∈ (crawl_recursive fetch maxD maxP gas start depth
        visited).toScrape, fetch v ≠ none) := by
  constructor
  · intro u rest gas depth visited hf hv hp hd
    have hguard : ¬ (maxD < depth ∨ maxP ≤ visited.length) := by omega
    have hloop := crawlLoop_failed_cons fetch maxP u rest visited [] hf hv hp
    cases gas with
    | zero =>
      rw [crawl_recursive_zero, crawl_recursive_zero, if_neg hguard,
        if_neg hguard, hloop]
    | succ gas =>
      rw [crawl_recursive_succ, crawl_recursive_succ, if_neg hguard,
        if_neg hguard, hloop]
      dsimp only
      split_ifs with hc
      · rfl
      · rfl
  · exact crawl_recursive_toScrape_success fetch maxD maxP

/-- Witness for the amended C6 at the concrete fetch function fetchExP. -/
theorem c6_witness :
    crawl_recursive fetchExP 3 100 2 ["Q", "R"] 1 ["P"] =
      ⟨(crawl_recursive fetchExP 3 100 2 ["R"] 1 ["P"]).toScrape,
       (crawl_recursive fetchExP 3 100 2 ["R"] 1 ["P"]).visited,
       "Q" :: (crawl_recursive fetchExP 3 100 2 ["R"] 1 ["P"]).attempts⟩
  ∧ ("P" ∈ (crawl_recursive fetchExP 3 100 3 ["P"] 0 []).toScrape →
      fetchExP "P" ≠ none) := by
  refine ⟨(c6_amended_failed_fetch fetchExP 3 100).1 "Q" ["R"] 2 1 ["P"]
    rfl (by decide) (by decide) (by decide),
    fun _ => (c6_amended_failed_fetch fetchExP 3 100).2 3 ["P"] 0 [] "P"
      (by decide)⟩

/-- C7: running add_chunks against a store whose document count is already
greater than zero is a no-op: the store is returned unchanged (no document
inserted, count unchanged) and the embedding service is invoked zero
times. -/
theorem c7_idempotent_ingestion (overlap : Int)
    (splitter : String → List String) (store : List StoredDoc)
    (chunks : List RawChunk) (apply_token_chunking : Bool)
    (h : 0 < store.length) :
    add_chunks overlap splitter store chunks apply_token_chunking
      = (store, 0) := by
  simp only [add_chunks]
  split_ifs with h1 <;> rfl

/-- Witness for C7: a store already holding one document is untouched. -/
theorem c7_witness :
    add_chunks 50 (fun s => [s]) exStore [exChunk] true = (exStore, 0) :=
  c7_idempotent_ingestion 50 (fun s => [s]) exStore [exChunk] true
    (by decide)

/-- C8: the confidence mapping of generate_response: no matches gives low;
otherwise the mean distance is compared against 0.3 and 0.5 as exclusive
upper bounds on the high and medium tiers, so a mean of exactly 0.3 is
medium and a mean of exactly 0.5 is low. -/
theorem c8_confidence_thresholds :
    computeConfidence [] = Confidence.low
  ∧ (∀ ds : List Rat, ds ≠ [] →
      ((ds.sum / (ds.length : Rat) < 3/10 →
          computeConfidence ds = Confidence.high)
     ∧ (3/10 ≤ ds.sum / (ds.length : Rat) →
          ds.sum / (ds.length : Rat) < 1/2 →
          computeConfidence ds = Confidence.medium)
     ∧ (1/2 ≤ ds.sum / (ds.length : Rat) →
          computeConfidence ds = Confidence.low)
     ∧ (ds.sum / (ds.length : Rat) = 3/10 →
          computeConfidence ds = Confidence.medium)
     ∧ (ds.sum / (ds.length : Rat) = 1/2 →
          computeConfidence ds = Confidence.low))) := by
  constructor
  · rfl
  · intro ds hds
    simp only [computeConfidence, if_neg hds]
    refine ⟨?_, ?_, ?_, ?_, ?_⟩
    · intro h
      rw [if_pos h]
    · intro h1 h2
      rw [if_neg (not_lt.mpr h1), if_pos h2]
    · intro h
      rw [if_neg (by linarith : ¬ ds.sum / (ds.length : Rat) < 3/10),
        if_neg (not_lt.mpr h)]
    · intro h
      rw [if_neg (by rw [h]; norm_num), if_pos (by rw [h]; norm_num)]
    · intro h
      rw [if_neg (by rw [h]; norm_num), if_neg (by rw [h]; norm_num)]

/-- Witness for C8 at singleton distance lists hitting both boundaries and
the high tier. -/
theorem c8_witness :
    computeConfidence [3/10] = Confidence.medium
  ∧ computeConfidence [1/2] = Confidence.low
  ∧ computeConfidence [1/10] = Confidence.high
  ∧ computeConfidence [] = Confidence.low := by
  refine ⟨(c8_confidence_thresholds.2 [3/10] (by simp)).2.2.2.1 (by norm_num),
    (c8_confidence_thresholds.2 [1/2] (by simp)).2.2.2.2 (by norm_num),
    (c8_confidence_thresholds.2 [1/10] (by simp)).1 (by norm_num),
    c8_confidence_thresholds.1⟩

/- ===================== string lemmas for response cleaning ===================== -/

lemma prefixChars_ex :
    ∀ (p s : List Char), prefixChars p s = true → ∃ t, s = p ++ t := by
  intro p
  induction p with
  | nil => intro s _; exact ⟨s, rfl⟩
  | cons a p ih =>
    intro s h
    cases s with
    | nil => simp [prefixChars] at h
    | cons b s =>
      simp only [prefixChars, Bool.and_eq_true, beq_iff_eq] at h
      obtain ⟨t, ht⟩ := ih s h.2
      exact ⟨t, by simp [h.1, ht]⟩

lemma prefixChars_self :
    ∀ (p t : List Char), prefixChars p (p ++ t) = true := by
  intro p
  induction p with
  | nil => intro t; rfl
  | cons a p ih => intro t; simp [prefixChars, ih]

lemma infixChars_nil_pat : ∀ s : List Char, infixChars [] s = true := by
  intro s
  cases s with
  | nil => rfl
  | cons c cs => simp [infixChars, prefixChars]

lemma infixChars_intro (p : List Char) :
    ∀ (u v : List Char), infixChars p (u ++ (p ++ v)) = true := by
  intro u
  induction u with
  | nil =>
    intro v
    simp only [List.nil_append]
    cases p with
    | nil => exact infixChars_nil_pat v
    | cons a as =>
      have hpre := prefixChars_self (a :: as) v
      simp only [List.cons_append] at hpre
      simp [infixChars, hpre]
  | cons c u ih =>
    intro v
    simp only [List.cons_append, infixChars]
    simp [ih v]

lemma stripChars_ex (cs : List Char) :
    ∃ u v, cs = u ++ (stripChars cs ++ v) := by
  have h1 : cs = cs.takeWhile Char.isWhitespace ++
      cs.dropWhile Char.isWhitespace :=
    (List.takeWhile_append_dropWhile Char.isWhitespace cs).symm
  have h2 := List.takeWhile_append_dropWhile Char.isWhitespace
    (cs.dropWhile Char.isWhitespace).reverse
  have h3 : cs.dropWhile Char.isWhitespace = stripChars cs ++
      ((cs.dropWhile Char.isWhitespace).reverse.takeWhile
        Char.isWhitespace).reverse := by
    have h4 := congrArg List.reverse h2
    simp only [List.reverse_append, List.reverse_reverse] at h4
    rw [stripChars]
    exact h4.symm
  exact ⟨cs.takeWhile Char.isWhitespace,
    ((cs.dropWhile Char.isWhitespace).reverse.takeWhile
      Char.isWhitespace).reverse,
    h1.trans (by rw [← h3])⟩

lemma splitOnChar_ne_nil (c : Char) (cs : List Char) :
    splitOnChar c cs ≠ [] := by
  cases cs with
  | nil => simp [splitOnChar]
  | cons x xs =>
    simp only [splitOnChar]
    cases h : splitOnChar c xs with
    | nil => simp
    | cons hd tl => split_ifs <;> simp

lemma splitOnChar_head_ex (c : Char) :
    ∀ (cs h : List Char) (t : List (List Char)),
      splitOnChar c cs = h :: t → ∃ u, cs = h ++ u := by
  intro cs
  induction cs with
  | nil =>
    intro h t he
    simp only [splitOnChar, List.cons.injEq] at he
    exact ⟨[], by simp [← he.1]⟩
  | cons x xs ih =>
    intro h t he
    simp only [splitOnChar] at he
    cases hs : splitOnChar c xs with
    | nil => exact absurd hs (splitOnChar_ne_nil c xs)
    | cons hd tl =>
      rw [hs] at he
      split_ifs at he with hx
      · simp only [List.cons.injEq] at he
        exact ⟨x :: xs, by simp [← he.1]⟩
      · simp only [List.cons.injEq] at he
        obtain ⟨u, hu⟩ := ih hd tl hs
        refine ⟨u, ?_⟩
        rw [← he.1]
        simp [hu]

lemma mem_splitOnChar_ex (c : Char) :
    ∀ (cs p : List Char), p ∈ splitOnChar c cs →
      ∃ u v, cs = u ++ (p ++ v) := by
  intro cs
  induction cs with
  | nil =>
    intro p hp
    simp only [splitOnChar, List.mem_singleton] at hp
    exact ⟨[], [], by simp [hp]⟩
  | cons x xs ih =>
    intro p hp
    simp only [splitOnChar] at hp
    cases hs : splitOnChar c xs with
    | nil => exact absurd hs (splitOnChar_ne_nil c xs)
    | cons hd tl =>
      rw [hs] at hp
      split_ifs at hp with hx
      · simp only [List.mem_cons] at hp
        rcases hp with rfl | hp
        · exact ⟨[], x :: xs, rfl⟩
        · obtain ⟨u, v, huv⟩ := ih p (by rw [hs]; exact List.mem_cons.mpr hp)
          exact ⟨x :: u, v, by simp [huv]⟩
      · simp only [List.mem_cons] at hp
        rcases hp with rfl | hp
        · obtain ⟨u, hu⟩ := splitOnChar_head_ex c xs hd tl hs
          exact ⟨[], u, by simp [hu]⟩
        · obtain ⟨u, v, huv⟩ := ih p
            (by rw [hs]; exact List.mem_cons_of_mem _ hp)
          exact ⟨x :: u, v, by simp [huv]⟩

lemma sourcesLine_implies_guard (raw l : String)
    (hl : l ∈ pySplitLines raw) (hs : isSourcesLine l = true) :
    cleanGuard raw = true := by
  simp only [pySplitLines, List.mem_map] at hl
  obtain ⟨p, hp, hlp⟩ := hl
  have hld : l.data = p := by rw [← hlp]
  have hpre : prefixChars "sources:".data
      ((stripChars p).map Char.toLower) = true := by
    have hdata : (pyLower (pyStrip l)).data
        = (stripChars l.data).map Char.toLower := rfl
    simpa [isSourcesLine, startsWithStr, hdata, hld] using hs
  obtain ⟨t, ht⟩ := prefixChars_ex _ _ hpre
  obtain ⟨u1, v1, huv1⟩ := stripChars_ex p
  obtain ⟨u0, v0, huv0⟩ := mem_splitOnChar_ex _ _ _ hp
  have hraw : raw.data.map Char.toLower =
      (u0.map Char.toLower ++ u1.map Char.toLower) ++
        ("sources:".data ++ (t ++ (v1.map Char.toLower ++
          v0.map Char.toLower))) := by
    rw [huv0, huv1]
    simp only [List.map_append, ht]
    simp [List.append_assoc]
  have hinf : infixChars "sources:".data (raw.data.map Char.toLower)
      = true := by
    rw [hraw]
    exact infixChars_intro _ _ _
  have hc : pyContains "sources:" (pyLower raw) = true := by
    simpa [pyContains, pyLower] using hinf
  simp [cleanGuard, hc]

/- ===================== source extraction lemmas ===================== -/

lemma extractDocsLoop_eq_dedup :
    ∀ (ds : List DocMeta) (seen : List String),
      (extractDocsLoop ds seen).1 = firstOccurrenceDedup seen
        ((ds.filter (fun d => d.source_url != "")).map
          (fun d => ⟨d.source_url, d.section_title, d.start_char,
            d.end_char, none⟩)) := by
  intro ds
  induction ds with
  | nil => intro seen; rfl
  | cons d ds ih =>
    intro seen
    by_cases he : d.source_url = ""
    · have hfe : (d.source_url != "") = false := by simp [he]
      simp only [extractDocsLoop, List.filter_cons, hfe]
      rw [if_neg (by simp [he])]
      exact ih seen
    · have hfe : (d.source_url != "") = true := by simp [he]
      by_cases hseen : d.source_url ∈ seen
      · simp only [extractDocsLoop, List.filter_cons, hfe]
        rw [if_neg (by simp [hseen]), if_true]
        simp only [List.map_cons, firstOccurrenceDedup]
        rw [if_pos hseen]
        exact ih seen
      · simp only [extractDocsLoop, List.filter_cons, hfe]
        rw [if_pos ⟨he, hseen⟩, if_true]
        simp only [List.map_cons, firstOccurrenceDedup]
        rw [if_neg hseen]
        simp only [List.cons.injEq, true_and]
        exact ih (d.source_url :: seen)

lemma extractDocsLoop_seen_mem :
    ∀ (ds : List DocMeta) (seen : List String) (w : String),
      (w ∈ (extractDocsLoop ds seen).2 ↔
        w ∈ seen ∨ w ∈ (extractDocsLoop ds seen).1.map SourceRec.url) := by
  intro ds
  induction ds with
  | nil => intro seen w; simp [extractDocsLoop]
  | cons d ds ih =>
    intro seen w
    by_cases hc : d.source_url ≠ "" ∧ d.source_url ∉ seen
    · simp only [extractDocsLoop, if_pos hc]
      rw [ih (d.source_url :: seen) w]
      simp [List.mem_cons, List.map_cons]
      tauto
    · simp only [extractDocsLoop, if_neg hc]
      exact ih seen w

lemma extractResultsLoop_eq_dedup :
    ∀ (rs : List SearchResult) (seen : List String),
      (extractResultsLoop rs seen).1 = firstOccurrenceDedup seen
        (rs.map (fun r => ⟨r.source_url, r.section_title, r.start_char,
          r.end_char,
          if r.distance ≠ 0 then some (1 - r.distance) else none⟩)) := by
  intro rs
  induction rs with
  | nil => intro seen; rfl
  | cons r rs ih =>
    intro seen
    simp only [extractResultsLoop, List.map_cons, firstOccurrenceDedup]
    by_cases hseen : r.source_url ∈ seen
    · rw [if_neg (not_not_intro hseen), if_pos hseen]
      exact ih seen
    · rw [if_pos hseen, if_neg hseen]
      simp only [List.cons.injEq, true_and]
      exact ih (r.source_url :: seen)

lemma firstOccurrenceDedup_congr :
    ∀ (xs : List SourceRec) (seen1 seen2 : List String),
      (∀ w, w ∈ seen1 ↔ w ∈ seen2) →
      firstOccurrenceDedup seen1 xs = firstOccurrenceDedup seen2 xs := by
  intro xs
  induction xs with
  | nil => intro seen1 seen2 _; rfl
  | cons s xs ih =>
    intro seen1 seen2 h
    by_cases hs : s.url ∈ seen1
    · simp only [firstOccurrenceDedup, if_pos hs, if_pos ((h s.url).mp hs)]
      exact ih seen1 seen2 h
    · have hs2 : s.url ∉ seen2 := fun hc => hs ((h s.url).mpr hc)
      simp only [firstOccurrenceDedup, if_neg hs, if_neg hs2]
      rw [ih (s.url :: seen1) (s.url :: seen2) (by
        intro w
        simp only [List.mem_cons]
        rw [h w])]

lemma firstOccurrenceDedup_append :
    ∀ (xs ys : List SourceRec) (seen : List String),
      firstOccurrenceDedup seen (xs ++ ys) =
        firstOccurrenceDedup seen xs ++
          firstOccurrenceDedup
            ((firstOccurrenceDedup seen xs).map SourceRec.url ++ seen) ys := by
  intro xs
  induction xs with
  | nil =>
    intro ys seen
    simp only [List.nil_append, firstOccurrenceDedup, List.map_nil]
  | cons s xs ih =>
    intro ys seen
    by_cases hs : s.url ∈ seen
    · simp only [List.cons_append, firstOccurrenceDedup, if_pos hs]
      exact ih ys seen
    · simp only [List.cons_append, firstOccurrenceDedup, if_neg hs,
        List.append_eq]
      rw [ih ys (s.url :: seen)]
      simp only [List.map_cons, List.cons_append]
      have hcg := firstOccurrenceDedup_congr ys
        ((firstOccurrenceDedup (s.url :: seen) xs).map SourceRec.url ++
          s.url :: seen)
        (s.url :: ((firstOccurrenceDedup (s.url :: seen) xs).map
          SourceRec.url ++ seen))
        (by
          intro w
          simp only [List.mem_cons, List.mem_append]
          tauto)
      rw [hcg]

lemma firstOccurrenceDedup_subset :
    ∀ (xs : List SourceRec) (seen : List String) (s : SourceRec),
      s ∈ firstOccurrenceDedup seen xs → s ∈ xs := by
  intro xs
  induction xs with
  | nil => intro seen s h; simp [firstOccurrenceDedup] at h
  | cons x xs ih =>
    intro seen s h
    by_cases hx : x.url ∈ seen
    · simp only [firstOccurrenceDedup, if_pos hx] at h
      exact List.mem_cons_of_mem _ (ih seen s h)
    · simp only [firstOccurrenceDedup, if_neg hx, List.mem_cons] at h
      rcases h with rfl | h
      · exact List.mem_cons_self _ _
      · exact List.mem_cons_of_mem _ (ih (x.url :: seen) s h)

lemma firstOccurrenceDedup_nodup :
    ∀ (xs : List SourceRec) (seen : List String),
      ((firstOccurrenceDedup seen xs).map SourceRec.url).Nodup
    ∧ (∀ w ∈ (firstOccurrenceDedup seen xs).map SourceRec.url, w ∉ seen) := by
  intro xs
  induction xs with
  | nil => intro seen; simp [firstOccurrenceDedup]
  | cons x xs ih =>
    intro seen
    by_cases hx : x.url ∈ seen
    · simpa only [firstOccurrenceDedup, if_pos hx] using ih seen
    · simp only [firstOccurrenceDedup, if_neg hx, List.map_cons,
        List.nodup_cons]
      have h1 := (ih (x.url :: seen)).1
      have h2 := (ih (x.url :: seen)).2
      refine ⟨⟨?_, h1⟩, ?_⟩
      · intro hc
        exact h2 x.url hc (List.mem_cons_self _ _)
      · intro w hw
        simp only [List.mem_cons] at hw
        rcases hw with rfl | hw
        · exact hx
        · intro hws
          exact h2 w hw (List.mem_cons_of_mem _ hws)


/-- C9: extract_sources equals first-occurrence-wins deduplication by URL
of the candidate stream drawn from the retrieval layer's own documents and
search results; every validated source URL comes from those retrieved
matches (citations are never parsed from model output) and starts with
http; validated source URLs are pairwise distinct; the cleaned response's
lines are a prefix of the raw response's lines; no kept line is a
sources-line (any trailing portion beginning at a line starting with
"sources:", case-insensitively, is stripped); and on the success path
generate_response uses exactly these validated sources and this cleaned
response. -/
theorem c9_citation_hygiene :
    (∀ (docs : List DocMeta) (results : List SearchResult),
      extract_sources docs results =
        firstOccurrenceDedup [] (candidateSources docs results))
  ∧ (∀ (docs : List DocMeta) (results : List SearchResult),
      ∀ s ∈ validated_sources docs results,
        s.url ∈ docs.map DocMeta.source_url ++
          results.map SearchResult.source_url)
  ∧ (∀ (docs : List DocMeta) (results : List SearchResult),
      ∀ s ∈ validated_sources docs results,
        startsWithStr "http" s.url = true)
  ∧ (∀ (docs : List DocMeta) (results : List SearchResult),
      ((validated_sources docs results).map SourceRec.url).Nodup)
  ∧ (∀ raw : String, ∃ t, cleanedLines raw ++ t = pySplitLines raw)
  ∧ (∀ raw : String, ∀ l ∈ cleanedLines raw, isSourcesLine l = false)
  ∧ (∀ (q : String) (hist : List ChatMsg) (sr : List SearchResult)
      (sd : List DocMeta) (raw : String),
      (check_query_appropriateness q).1 = true →
      ((generate_response q hist sr sd (Except.ok raw)).1.sources =
          validated_sources sd sr
        ∧ (generate_response q hist sr sd (Except.ok raw)).1.response =
          cleanResponse raw)) := by
  have heq : ∀ (docs : List DocMeta) (results : List SearchResult),
      extract_sources docs results =
        firstOccurrenceDedup [] (candidateSources docs results) := by
    intro docs results
    show (extractDocsLoop docs []).1 ++
        (extractResultsLoop results (extractDocsLoop docs []).2).1 = _
    rw [extractDocsLoop_eq_dedup, extractResultsLoop_eq_dedup,
      candidateSources, firstOccurrenceDedup_append]
    congr 1
    refine firstOccurrenceDedup_congr _ _ _ ?_
    intro w
    rw [extractDocsLoop_seen_mem docs [] w,
      extractDocsLoop_eq_dedup docs []]
    simp [List.mem_append]
  refine ⟨heq, ?_, ?_, ?_, ?_, ?_, ?_⟩
  · intro docs results s hs
    have hs' : s ∈ extract_sources docs results := List.mem_of_mem_filter hs
    rw [heq] at hs'
    have hc := firstOccurrenceDedup_subset _ _ _ hs'
    simp only [candidateSources, List.mem_append, List.mem_map,
      List.mem_filter] at hc
    simp only [List.mem_append, List.mem_map]
    rcases hc with ⟨d, ⟨hd, _⟩, rfl⟩ | ⟨r, hr, rfl⟩
    · exact Or.inl ⟨d, hd, rfl⟩
    · exact Or.inr ⟨r, hr, rfl⟩
  · intro docs results s hs
    have := List.of_mem_filter hs
    simp only [Bool.and_eq_true] at this
    exact this.2
  · intro docs results
    have hnd : ((extract_sources docs results).map SourceRec.url).Nodup := by
      rw [heq]
      exact (firstOccurrenceDedup_nodup (candidateSources docs results) []).1
    exact hnd.sublist ((List.filter_sublist _).map SourceRec.url)
  · intro raw
    by_cases g : cleanGuard raw = true
    · refine ⟨(pySplitLines raw).dropWhile (fun l => !isSourcesLine l), ?_⟩
      simp [cleanedLines, g, List.takeWhile_append_dropWhile]
    · exact ⟨[], by simp [cleanedLines, g]⟩
  · intro raw l hl
    by_cases g : cleanGuard raw = true
    · simp only [cleanedLines, if_pos g] at hl
      have := List.mem_takeWhile_imp hl
      simpa using this
    · simp only [cleanedLines, if_neg g] at hl
      by_contra hcon
      exact g (sourcesLine_implies_guard raw l hl
        (by simpa using hcon))
  · intro q hist sr sd raw hq
    constructor <;> simp [generate_response, hq]

/-- Witness for C9 at a concrete retrieved document, search result and raw
response. -/
theorem c9_witness :
    ((validated_sources [exDocMeta] [exSearchRes]).getD 0 default).url ∈
      [exDocMeta].map DocMeta.source_url ++
        [exSearchRes].map SearchResult.source_url
  ∧ startsWithStr "http"
      ((validated_sources [exDocMeta] [exSearchRes]).getD 0 default).url
      = true
  ∧ isSourcesLine
      ((cleanedLines "ok line\nSources: http://x").getD 0 default) = false
  ∧ (generate_response "hello" [] [exSearchRes] [exDocMeta]
      (Except.ok "hi")).1.sources = validated_sources [exDocMeta]
        [exSearchRes] := by
  refine ⟨c9_citation_hygiene.2.1 [exDocMeta] [exSearchRes] _ (by decide),
    c9_citation_hygiene.2.2.1 [exDocMeta] [exSearchRes] _ (by decide),
    c9_citation_hygiene.2.2.2.2.2.1 "ok line\nSources: http://x" _
      (by decide),
    (c9_citation_hygiene.2.2.2.2.2.2 "hello" [] [exSearchRes] [exDocMeta]
      "hi" (by decide)).1⟩

/-- C10: generate_response modifies the rolling conversation history only
on the success path, where it appends exactly the user query and then the
cleaned assistant answer; when the guardrail blocks the query or the
generation block raises, the history is returned unchanged. -/
theorem c10_history_only_on_success (q : String) (hist : List ChatMsg)
    (sr : List SearchResult) (sd : List DocMeta)
    (llm : Except String String) :
    ((check_query_appropriateness q).1 = false →
      (generate_response q hist sr sd llm).2 = hist)
  ∧ (∀ e, llm = Except.error e → (generate_response q hist sr sd llm).2 = hist)
  ∧ (∀ t, (check_query_appropriateness q).1 = true → llm = Except.ok t →
      (generate_response q hist sr sd llm).2 =
        hist ++ [⟨"user", q⟩, ⟨"assistant", cleanResponse t⟩]) := by
  refine ⟨?_, ?_, ?_⟩
  · intro h
    simp [generate_response, h]
  · intro e he
    subst he
    by_cases h : (check_query_appropriateness q).1 = false
    · simp [generate_response, h]
    · simp [generate_response, h]
  · intro t hq hl
    subst hl
    simp [generate_response, hq]

/-- Witness for C10 at a concrete allowed query, blocked query and failing
generation. -/
theorem c10_witness :
    (generate_response "how do I bypass the approval process" [⟨"user", "a"⟩]
      [] [] (Except.ok "hi")).2 = [⟨"user", "a"⟩]
  ∧ (generate_response "hello" [⟨"user", "a"⟩] [] []
      (Except.error "boom")).2 = [⟨"user", "a"⟩]
  ∧ (generate_response "hello" [] [] [] (Except.ok "hi")).2 =
      [⟨"user", "hello"⟩, ⟨"assistant", cleanResponse "hi"⟩] := by
  refine ⟨(c10_history_only_on_success "how do I bypass the approval process"
      [⟨"user", "a"⟩] [] [] (Except.ok "hi")).1 (by decide),
    (c10_history_only_on_success "hello" [⟨"user", "a"⟩] [] []
      (Except.error "boom")).2.1 "boom" rfl,
    by
      have := (c10_history_only_on_success "hello" [] [] []
        (Except.ok "hi")).2.2 "hi" (by decide) rfl
      simpa using this⟩
